import Mathlib

/-!
Verification of the modd filesystem-watcher core (`modd.go`) against its
specification.  The Go source is shallowly embedded: Go `map[string]bool`
values (used as path sets, with nondeterministic iteration order) become
`Finset String`; slices become `List String`; functions returning
`(T, error)` become `Except Unit T`.  External collaborators that are not
part of the source under verification (`filepath.Abs`, `filepath.Rel`,
`filepath.Join`, the glob filter `filterFiles`) are taken as parameters.
-/

namespace Modd

/-- The four raw notification kinds delivered by the OS-integration
collaborator (`notify.Create`, `notify.Remove`, `notify.Write`,
`notify.Rename` in the source). -/
inductive EventKind where
  | create
  | remove
  | write
  | rename
deriving DecidableEq, Repr

/-- A raw filesystem notification: an absolute path plus an `EventKind`
(`notify.EventInfo` restricted to the two accessors `Path()` and `Event()`
that `batch` uses). -/
structure RawEvent where
  path : String
  kind : EventKind
deriving DecidableEq, Repr

/-- Go:
`type Mod struct { Changed []string; Deleted []string; Added []string }`. -/
structure Mod where
  Changed : List String
  Deleted : List String
  Added : List String
deriving DecidableEq, Repr

/-- Go `_keys`: the keys of a `map[string]bool`, sorted with
`sort.Strings` (the empty map yields `nil`, i.e. the empty list). -/
def _keys (m : Finset String) : List String :=
  m.sort (· ≤ ·)

/-- Go `Mod.All`: inserts every path of `Changed`, `Added` and `Deleted`
into one map `all`, then returns `_keys(all)`. -/
def Mod.All (mod : Mod) : List String :=
  let all : Finset String := mod.Changed.foldl (fun s p => insert p s) ∅
  let all := mod.Added.foldl (fun s p => insert p s) all
  let all := mod.Deleted.foldl (fun s p => insert p s) all
  _keys all

/-- Go `Mod.Empty`: false iff one of the three slices is nonempty. -/
def Mod.Empty (mod : Mod) : Bool :=
  if mod.Changed.length > 0 || mod.Deleted.length > 0 || mod.Added.length > 0 then
    false
  else
    true

/-- The four accumulation maps local to one `batch` cycle
(`added`, `removed`, `changed`, `renamed` in the source). -/
structure AccSets where
  added : Finset String
  removed : Finset String
  changed : Finset String
  renamed : Finset String
deriving DecidableEq

/-- The `select` event branch of `batch`: classify one received event into
the four maps (`added[evt.Path()] = true` etc.). -/
def accumStep (s : AccSets) (e : RawEvent) : AccSets :=
  match e.kind with
  | .create => { s with added := insert e.path s.added }
  | .remove => { s with removed := insert e.path s.removed }
  | .write => { s with changed := insert e.path s.changed }
  | .rename => { s with renamed := insert e.path s.renamed }

/-- The accumulation phase of one `batch` cycle: the events received on the
channel during the cycle, folded through `accumStep`, starting from the four
freshly `make`d empty maps. -/
def accumulate (evts : List RawEvent) : AccSets :=
  evts.foldl accumStep ⟨∅, ∅, ∅, ∅⟩

/-- Resolution step 1 of `batch` (`for k := range renamed`): a renamed path
that exists is recorded as added, one that does not as removed.  The Go loop
performs independent per-key map writes, so its net effect on the maps is
this set-level update, whatever the map iteration order. -/
def resolveRenamed (ex : String → Bool) (s : AccSets) : AccSets :=
  { s with
    added := s.added ∪ s.renamed.filter (fun k => ex k = true)
    removed := s.removed ∪ s.renamed.filter (fun k => ¬ex k = true) }

/-- Resolution step 2 of `batch` (`for k := range added`): an added path that
exists is deleted from `changed` and `removed`; one that does not exist is
struck from all three maps.  Each iteration deletes only its own key `k`, so
the net effect is order-independent: `added` keeps its existing keys,
while `removed` and `changed` lose every key of `added`. -/
def resolveAdded (ex : String → Bool) (s : AccSets) : AccSets :=
  { s with
    added := s.added.filter (fun k => ex k = true)
    removed := s.removed \ s.added
    changed := s.changed \ s.added }

/-- Resolution step 3 of `batch` (`for k := range removed`): a removed path
that exists is deleted from `removed`; one that does not exist is deleted
from `added` and `changed` (and stays in `removed`).  Again each iteration
deletes only its own key, so the net effect is order-independent. -/
def resolveRemoved (ex : String → Bool) (s : AccSets) : AccSets :=
  { s with
    added := s.added \ s.removed.filter (fun k => ¬ex k = true)
    removed := s.removed.filter (fun k => ¬ex k = true)
    changed := s.changed \ s.removed.filter (fun k => ¬ex k = true) }

/-- Go `batch`, with the debounce timing abstracted away (see `batchCycle`
for the timing model): given the existence checker and the list of events
received during one cycle, accumulate them and run the three resolution
steps in source order, then convert the maps to sorted slices
(`ret.Added = _keys(added)` etc.). -/
def batch (ex : String → Bool) (evts : List RawEvent) : Mod :=
  let s := resolveRemoved ex (resolveAdded ex (resolveRenamed ex (accumulate evts)))
  { Added := _keys s.added, Changed := _keys s.changed, Deleted := _keys s.removed }

/-- Go `Mod.Filter` (`func (mod *Mod) Filter(excludes []string) (*Mod, error)`).
The glob filter `filterFiles` it calls lives outside the file under
verification, so it is taken as the parameter `ff` (first argument: the file
list, second: the exclude patterns).  The receiver is a pointer; to make the
claim about in-place mutation statable, the embedding returns a pair whose
first component is the value `*mod` holds after the call — the body reads
`mod.Changed`, `mod.Deleted` and `mod.Added` and never assigns through the
pointer, so that component is the original receiver value — and whose second
component is the Go return value (a freshly allocated `Mod` on success). -/
def Mod.Filter (ff : List String → List String → Except Unit (List String))
    (mod : Mod) (excludes : List String) : Mod × Except Unit Mod :=
  (mod,
    match ff mod.Changed excludes with
    | .error e => .error e
    | .ok changed =>
      match ff mod.Deleted excludes with
      | .error e => .error e
      | .ok deleted =>
        match ff mod.Added excludes with
        | .error e => .error e
        | .ok added => .ok { Changed := changed, Deleted := deleted, Added := added })

/-- Go `isUnder`: true iff `parent` is a prefix of `child` and either the two
are equal or the next byte of `child` is a path separator.  Both sides pass
through `filepath.ToSlash`, the identity on the slash-separated paths
considered here; Go indexes bytes where the embedding indexes characters,
which agree on such paths. -/
def isUnder (parent child : String) : Bool :=
  child.toList.take parent.toList.length == parent.toList &&
    (child.toList.length == parent.toList.length ||
      child.toList.get? parent.toList.length == some '/')

/-- Go `normPath`: walk the bases in order; for the first base whose
absolutized form contains `abspath`, return `Join(base, Rel(absbase,
abspath))`, propagating errors; if no base matches, return `abspath`
unchanged with no error.  `filepath.Abs`, `filepath.Rel` and
`filepath.Join` are external to the file under verification, so they are
the parameters `abs` (result string plus an error flag, matching Go's
`(string, error)` with the string `""` when the error is set), `rel` and
`join`.  Note the source consults `Abs`'s error only inside the `isUnder`
branch. -/
def normPath (abs : String → String × Bool) (rel : String → String → Except Unit String)
    (join : String → String → String) (bases : List String) (abspath : String) :
    Except Unit String :=
  match bases with
  | [] => .ok abspath
  | base :: rest =>
    let absbase := (abs base).1
    if isUnder absbase abspath then
      if (abs base).2 then .error ()
      else
        match rel absbase abspath with
        | .error e => .error e
        | .ok relpath => .ok (join base relpath)
    else normPath abs rel join rest abspath

/-- Go `normPaths` (the free function): normalize each path, aborting on the
first error. -/
def normPaths (abs : String → String × Bool) (rel : String → String → Except Unit String)
    (join : String → String → String) (bases : List String) (abspaths : List String) :
    Except Unit (List String) :=
  match abspaths with
  | [] => .ok []
  | p :: ps =>
    match normPath abs rel join bases p with
    | .error e => .error e
    | .ok norm =>
      match normPaths abs rel join bases ps with
      | .error e => .error e
      | .ok rest => .ok (norm :: rest)

/-- Go `Mod.normPaths` (the method): normalize the three slices, returning a
fresh `Mod`, or the first error. -/
def Mod.normPaths (abs : String → String × Bool) (rel : String → String → Except Unit String)
    (join : String → String → String) (mod : Mod) (bases : List String) :
    Except Unit Mod :=
  match Modd.normPaths abs rel join bases mod.Changed with
  | .error e => .error e
  | .ok changed =>
    match Modd.normPaths abs rel join bases mod.Deleted with
    | .error e => .error e
    | .ok deleted =>
      match Modd.normPaths abs rel join bases mod.Added with
      | .error e => .error e
      | .ok added => .ok { Changed := changed, Deleted := deleted, Added := added }

/-- What one iteration of `Watch`'s background loop does with the `Mod` that
`batch` returned: forward it (`ch <- *ret`), drop it silently (the
`!ret.Empty()` guard fails), or crash on a nil-pointer dereference. -/
inductive SessionOutcome where
  | emit (m : Mod)
  | skip
  | panicked
deriving DecidableEq, Repr

/-- One iteration of the `for` loop inside `Watch`'s goroutine, after
`batch` returned `ret` (never nil, so the `if ret != nil` guard is always
taken).  On a `normPaths` error the source logs and continues with `ret`
rebound to the returned nil pointer, so the following `ret.Filter` call
dereferences nil and panics; on a `Filter` error it likewise logs and then
`ret.Empty()` dereferences nil and panics.  Otherwise the filtered `Mod` is
sent iff it is nonempty. -/
def sessionStep (abs : String → String × Bool) (rel : String → String → Except Unit String)
    (join : String → String → String)
    (ff : List String → List String → Except Unit (List String))
    (paths excludes : List String) (ret : Mod) : SessionOutcome :=
  match Mod.normPaths abs rel join ret paths with
  | .error _ => .panicked
  | .ok ret1 =>
    match (Mod.Filter ff ret1 excludes).2 with
    | .error _ => .panicked
    | .ok ret2 => if ret2.Empty then .skip else .emit ret2

/-- Timing skeleton of `batch`'s `select` loop.  `r` is the instant the
quiet-period timer was last armed: the cycle start, or the arrival of the
event just processed — `time.After(batchTime)` is re-created on every
iteration of the `for` loop, so each received event re-arms the timer.
`times` holds the arrival instants of the pending events in arrival order.
An event arriving strictly before the deadline `r + D` is received and the
loop iterates with the timer re-armed at its arrival instant; otherwise the
timer fires first and the cycle ends at `r + D`.  Returns the arrival
instants consumed by this cycle and the instant the cycle ends. -/
def batchCycle (D : Nat) (r : Nat) : List Nat → List Nat × Nat
  | [] => ([], r + D)
  | t :: ts =>
    if t < r + D then
      let rest := batchCycle D t ts
      (t :: rest.1, rest.2)
    else ([], r + D)

/-! ### Membership in the accumulation maps -/

lemma foldl_accumStep_added (p : String) (evts : List RawEvent) (s : AccSets) :
    p ∈ (evts.foldl accumStep s).added ↔
      p ∈ s.added ∨ ∃ e ∈ evts, e.path = p ∧ e.kind = EventKind.create := by
  induction evts generalizing s with
  | nil => simp
  | cons e es ih =>
    rcases e with ⟨q, k⟩
    cases k <;>
      simp [accumStep, ih, Finset.mem_insert] <;> tauto

lemma foldl_accumStep_removed (p : String) (evts : List RawEvent) (s : AccSets) :
    p ∈ (evts.foldl accumStep s).removed ↔
      p ∈ s.removed ∨ ∃ e ∈ evts, e.path = p ∧ e.kind = EventKind.remove := by
  induction evts generalizing s with
  | nil => simp
  | cons e es ih =>
    rcases e with ⟨q, k⟩
    cases k <;>
      simp [accumStep, ih, Finset.mem_insert] <;> tauto

lemma foldl_accumStep_changed (p : String) (evts : List RawEvent) (s : AccSets) :
    p ∈ (evts.foldl accumStep s).changed ↔
      p ∈ s.changed ∨ ∃ e ∈ evts, e.path = p ∧ e.kind = EventKind.write := by
  induction evts generalizing s with
  | nil => simp
  | cons e es ih =>
    rcases e with ⟨q, k⟩
    cases k <;>
      simp [accumStep, ih, Finset.mem_insert] <;> tauto

lemma foldl_accumStep_renamed (p : String) (evts : List RawEvent) (s : AccSets) :
    p ∈ (evts.foldl accumStep s).renamed ↔
      p ∈ s.renamed ∨ ∃ e ∈ evts, e.path = p ∧ e.kind = EventKind.rename := by
  induction evts generalizing s with
  | nil => simp
  | cons e es ih =>
    rcases e with ⟨q, k⟩
    cases k <;>
      simp [accumStep, ih, Finset.mem_insert] <;> tauto

lemma mem_accumulate_added (p : String) (evts : List RawEvent) :
    p ∈ (accumulate evts).added ↔ ∃ e ∈ evts, e.path = p ∧ e.kind = EventKind.create := by
  simp [accumulate, foldl_accumStep_added]

lemma mem_accumulate_removed (p : String) (evts : List RawEvent) :
    p ∈ (accumulate evts).removed ↔ ∃ e ∈ evts, e.path = p ∧ e.kind = EventKind.remove := by
  simp [accumulate, foldl_accumStep_removed]

lemma mem_accumulate_changed (p : String) (evts : List RawEvent) :
    p ∈ (accumulate evts).changed ↔ ∃ e ∈ evts, e.path = p ∧ e.kind = EventKind.write := by
  simp [accumulate, foldl_accumStep_changed]

lemma mem_accumulate_renamed (p : String) (evts : List RawEvent) :
    p ∈ (accumulate evts).renamed ↔ ∃ e ∈ evts, e.path = p ∧ e.kind = EventKind.rename := by
  simp [accumulate, foldl_accumStep_renamed]

/-! ### Membership in the resolved `Mod` -/

lemma mem_batch_Added (ex : String → Bool) (evts : List RawEvent) (p : String) :
    p ∈ (batch ex evts).Added ↔
      p ∈ (resolveRemoved ex (resolveAdded ex (resolveRenamed ex (accumulate evts)))).added := by
  simp [batch, _keys, Finset.mem_sort]

lemma mem_batch_Changed (ex : String → Bool) (evts : List RawEvent) (p : String) :
    p ∈ (batch ex evts).Changed ↔
      p ∈ (resolveRemoved ex (resolveAdded ex (resolveRenamed ex (accumulate evts)))).changed := by
  simp [batch, _keys, Finset.mem_sort]

lemma mem_batch_Deleted (ex : String → Bool) (evts : List RawEvent) (p : String) :
    p ∈ (batch ex evts).Deleted ↔
      p ∈ (resolveRemoved ex (resolveAdded ex (resolveRenamed ex (accumulate evts)))).removed := by
  simp [batch, _keys, Finset.mem_sort]

/-- C1: for every finite sequence of raw events and every existence checker,
the `Mod` produced by `batch` has pairwise disjoint `Added`, `Changed` and
`Deleted` sequences: no path appears in more than one of the three. -/
theorem batch_disjoint (ex : String → Bool) (evts : List RawEvent) (p : String) :
    ¬(p ∈ (batch ex evts).Added ∧ p ∈ (batch ex evts).Changed) ∧
    ¬(p ∈ (batch ex evts).Added ∧ p ∈ (batch ex evts).Deleted) ∧
    ¬(p ∈ (batch ex evts).Changed ∧ p ∈ (batch ex evts).Deleted) := by
  rw [mem_batch_Added, mem_batch_Changed, mem_batch_Deleted]
  simp only [resolveRemoved, resolveAdded, resolveRenamed, Finset.mem_filter,
    Finset.mem_sdiff, Finset.mem_union]
  tauto

/-- C3: for every existence checker, a path reported only by `Rename` events
during one cycle appears only in `Added` when the checker affirms it, and
only in `Deleted` when the checker denies it. -/
theorem batch_rename_disambiguation (ex : String → Bool) (evts : List RawEvent) (p : String)
    (hocc : ∃ e ∈ evts, e.path = p)
    (honly : ∀ e ∈ evts, e.path = p → e.kind = EventKind.rename) :
    (ex p = true →
      p ∈ (batch ex evts).Added ∧ p ∉ (batch ex evts).Changed ∧ p ∉ (batch ex evts).Deleted) ∧
    (ex p = false →
      p ∈ (batch ex evts).Deleted ∧ p ∉ (batch ex evts).Added ∧ p ∉ (batch ex evts).Changed) := by
  have hren : p ∈ (accumulate evts).renamed := by
    obtain ⟨e, he, hp⟩ := hocc
    exact (mem_accumulate_renamed p evts).2 ⟨e, he, hp, honly e he hp⟩
  have hnadd : p ∉ (accumulate evts).added := by
    rw [mem_accumulate_added]
    rintro ⟨e, he, hp, hk⟩
    have hr := honly e he hp
    rw [hr] at hk
    exact EventKind.noConfusion hk
  have hnrem : p ∉ (accumulate evts).removed := by
    rw [mem_accumulate_removed]
    rintro ⟨e, he, hp, hk⟩
    have hr := honly e he hp
    rw [hr] at hk
    exact EventKind.noConfusion hk
  have hnchg : p ∉ (accumulate evts).changed := by
    rw [mem_accumulate_changed]
    rintro ⟨e, he, hp, hk⟩
    have hr := honly e he hp
    rw [hr] at hk
    exact EventKind.noConfusion hk
  rw [mem_batch_Added, mem_batch_Changed, mem_batch_Deleted]
  simp only [resolveRemoved, resolveAdded, resolveRenamed, Finset.mem_filter,
    Finset.mem_sdiff, Finset.mem_union]
  constructor
  · intro hex
    simp [hex, hren, hnadd, hnrem, hnchg]
  · intro hex
    have hex' : ¬ex p = true := by simp [hex]
    simp [hex', hren, hnadd, hnrem, hnchg]

/-- Witness for C3: the single event `Rename "a"`, checked with an
existence checker that always answers `true`, lands `"a"` in `Added`. -/
theorem batch_rename_disambiguation_witness :
    "a" ∈ (batch (fun _ => true) [⟨"a", EventKind.rename⟩]).Added := by
  have h := batch_rename_disambiguation (fun _ => true) [⟨"a", EventKind.rename⟩] "a"
    ⟨⟨"a", EventKind.rename⟩, by simp⟩ (by intro e he _; simp at he; simp [he])
  exact (h.1 rfl).1

/-- C4: a path reported both `Create` and `Remove` during one cycle, for
which the existence checker answers `false` at resolution time, appears in
none of the three categories of the resulting `Mod`. -/
theorem batch_transience_cancellation (ex : String → Bool) (evts : List RawEvent) (p : String)
    (hc : (⟨p, EventKind.create⟩ : RawEvent) ∈ evts)
    (hr : (⟨p, EventKind.remove⟩ : RawEvent) ∈ evts)
    (hex : ex p = false) :
    p ∉ (batch ex evts).Added ∧ p ∉ (batch ex evts).Changed ∧ p ∉ (batch ex evts).Deleted := by
  have hadd : p ∈ (accumulate evts).added :=
    (mem_accumulate_added p evts).2 ⟨⟨p, EventKind.create⟩, hc, rfl, rfl⟩
  have hex' : ¬ex p = true := by simp [hex]
  rw [mem_batch_Added, mem_batch_Changed, mem_batch_Deleted]
  simp only [resolveRemoved, resolveAdded, resolveRenamed, Finset.mem_filter,
    Finset.mem_sdiff, Finset.mem_union]
  simp [hex', hadd]

/-- Witness for C4: the events `Create "a"`, `Remove "a"` with an existence
checker that always answers `false` leave `"a"` out of all three
categories. -/
theorem batch_transience_cancellation_witness :
    "a" ∉ (batch (fun _ => false)
        [⟨"a", EventKind.create⟩, ⟨"a", EventKind.remove⟩]).Added ∧
    "a" ∉ (batch (fun _ => false)
        [⟨"a", EventKind.create⟩, ⟨"a", EventKind.remove⟩]).Changed ∧
    "a" ∉ (batch (fun _ => false)
        [⟨"a", EventKind.create⟩, ⟨"a", EventKind.remove⟩]).Deleted :=
  batch_transience_cancellation (fun _ => false)
    [⟨"a", EventKind.create⟩, ⟨"a", EventKind.remove⟩] "a"
    (by simp) (by simp) rfl

/-- C5: a path reported both `Write` and `Create` during one cycle, for
which the existence checker answers `true` at resolution time, appears only
in `Added` of the resulting `Mod`. -/
theorem batch_add_precedence (ex : String → Bool) (evts : List RawEvent) (p : String)
    (hw : (⟨p, EventKind.write⟩ : RawEvent) ∈ evts)
    (hc : (⟨p, EventKind.create⟩ : RawEvent) ∈ evts)
    (hex : ex p = true) :
    p ∈ (batch ex evts).Added ∧ p ∉ (batch ex evts).Changed ∧ p ∉ (batch ex evts).Deleted := by
  have hadd : p ∈ (accumulate evts).added :=
    (mem_accumulate_added p evts).2 ⟨⟨p, EventKind.create⟩, hc, rfl, rfl⟩
  rw [mem_batch_Added, mem_batch_Changed, mem_batch_Deleted]
  simp only [resolveRemoved, resolveAdded, resolveRenamed, Finset.mem_filter,
    Finset.mem_sdiff, Finset.mem_union]
  simp [hex, hadd]

/-- Witness for C5: the events `Write "a"`, `Create "a"` with an existence
checker that always answers `true` leave `"a"` only in `Added`. -/
theorem batch_add_precedence_witness :
    "a" ∈ (batch (fun _ => true)
        [⟨"a", EventKind.write⟩, ⟨"a", EventKind.create⟩]).Added ∧
    "a" ∉ (batch (fun _ => true)
        [⟨"a", EventKind.write⟩, ⟨"a", EventKind.create⟩]).Changed ∧
    "a" ∉ (batch (fun _ => true)
        [⟨"a", EventKind.write⟩, ⟨"a", EventKind.create⟩]).Deleted :=
  batch_add_precedence (fun _ => true)
    [⟨"a", EventKind.write⟩, ⟨"a", EventKind.create⟩] "a"
    (by simp) (by simp) rfl

/-- C6: a debounce cycle in which zero raw events arrive resolves to a `Mod`
with `Empty() == true`, and the watch session forwards a `Mod` to the
consumer channel only if it is nonempty. -/
theorem empty_cycle_suppression (ex : String → Bool) (abs : String → String × Bool)
    (rel : String → String → Except Unit String) (join : String → String → String)
    (ff : List String → List String → Except Unit (List String))
    (paths excludes : List String) (ret m : Mod) :
    (batch ex []).Empty = true ∧
    (sessionStep abs rel join ff paths excludes ret = SessionOutcome.emit m →
      m.Empty = false) := by
  refine ⟨?_, ?_⟩
  · simp [batch, accumulate, resolveRenamed, resolveAdded, resolveRemoved, _keys, Mod.Empty]
  intro h
  unfold sessionStep at h
  split at h
  · exact SessionOutcome.noConfusion h
  · split at h
    · exact SessionOutcome.noConfusion h
    · split at h
      · exact SessionOutcome.noConfusion h
      · rename_i hemp
        cases h
        simpa using hemp

/-- Witness for C6: an event-free cycle yields an empty `Mod`, and a cycle
whose post-processed `Mod` is `{Changed := ["a"]}` is emitted, hence
nonempty. -/
theorem empty_cycle_suppression_witness :
    (batch (fun _ => true) []).Empty = true ∧
    (Mod.mk ["a"] [] []).Empty = false := by
  have h := empty_cycle_suppression (fun _ => true) (fun b => (b, false))
    (fun _ c => Except.ok c) (fun a b => a ++ b) (fun l _ => Except.ok l)
    [] [] (Mod.mk ["a"] [] []) (Mod.mk ["a"] [] [])
  exact ⟨h.1, h.2 rfl⟩

/-- C9: `Mod.Filter` never mutates its receiver — after the call the
receiver's fields are unchanged (also on a filtering error), and on success
the result is a freshly constructed `Mod` whose fields are the filtered
values of the receiver's original fields. -/
theorem filter_no_mutation (ff : List String → List String → Except Unit (List String))
    (mod : Mod) (excludes : List String) :
    (Mod.Filter ff mod excludes).1 = mod ∧
    (∀ c d a, ff mod.Changed excludes = Except.ok c →
      ff mod.Deleted excludes = Except.ok d →
      ff mod.Added excludes = Except.ok a →
      (Mod.Filter ff mod excludes).2 = Except.ok (Mod.mk c d a)) := by
  refine ⟨rfl, ?_⟩
  intro c d a hc hd ha
  simp [Mod.Filter, hc, hd, ha]

/-- Witness for C9: filtering `{Changed := ["a"], Deleted := ["b"],
Added := ["c"]}` with an identity filter leaves the receiver unchanged and
returns a fresh equal `Mod`. -/
theorem filter_no_mutation_witness :
    (Mod.Filter (fun l _ => Except.ok l) (Mod.mk ["a"] ["b"] ["c"]) []).1 =
      Mod.mk ["a"] ["b"] ["c"] ∧
    (Mod.Filter (fun l _ => Except.ok l) (Mod.mk ["a"] ["b"] ["c"]) []).2 =
      Except.ok (Mod.mk ["a"] ["b"] ["c"]) := by
  have h := filter_no_mutation (fun l _ => Except.ok l) (Mod.mk ["a"] ["b"] ["c"]) []
  exact ⟨h.1, h.2 ["a"] ["b"] ["c"] rfl rfl rfl⟩

/-- C2 is refuted by the source: when post-processing fails the session does
log the error, but it then calls a method on the nil `*Mod` that the failed
step returned, so the iteration ends in a nil-pointer dereference (`panicked`)
instead of continuing to the next debounce cycle.  Left conjunct: a filter
error (`filterFiles` rejecting the malformed exclusion pattern `"["`) panics
at the subsequent `ret.Empty()` call.  Right conjunct: a normalization error
(`filepath.Abs` failing, returning `""` and an error, on base `"b"` with the
batched path `"/a"`) panics at the subsequent `ret.Filter` call. -/
theorem session_postprocessing_panics :
    sessionStep (fun b => (b, false)) (fun _ c => Except.ok c) (fun a b => a ++ b)
      (fun _ _ => Except.error ()) [] (String.mk ['['] :: []) (Mod.mk ["a"] [] []) =
      SessionOutcome.panicked ∧
    sessionStep (fun _ => ("", true)) (fun _ c => Except.ok c) (fun a b => a ++ b)
      (fun l _ => Except.ok l) ["b"] [] (Mod.mk ["/a"] [] []) =
      SessionOutcome.panicked := by
  constructor
  · rfl
  · rfl

/-- If every base of `bases` fails the `isUnder` test against `p` after
absolutization, `normPath` falls through its loop and returns `p`
unchanged. -/
lemma normPath_of_outside (abs : String → String × Bool)
    (rel : String → String → Except Unit String) (join : String → String → String)
    (bases : List String) (p : String)
    (h : ∀ b ∈ bases, isUnder (abs b).1 p = false) :
    normPath abs rel join bases p = Except.ok p := by
  induction bases with
  | nil => rfl
  | cons b bs ih =>
    have hb : isUnder (abs b).1 p = false := h b (by simp)
    simp only [normPath, hb]
    simp only [Bool.false_eq_true, if_false]
    exact ih fun b' hb' => h b' (by simp [hb'])

/-- `normPaths` maps `normPath_of_outside` over a list. -/
lemma normPaths_of_outside (abs : String → String × Bool)
    (rel : String → String → Except Unit String) (join : String → String → String)
    (bases : List String) (ps : List String)
    (h : ∀ q ∈ ps, ∀ b ∈ bases, isUnder (abs b).1 q = false) :
    normPaths abs rel join bases ps = Except.ok ps := by
  induction ps with
  | nil => rfl
  | cons q qs ih =>
    have hq := normPath_of_outside abs rel join bases q (h q (by simp))
    simp only [normPaths, hq]
    rw [ih fun q' hq' => h q' (by simp [hq'])]

/-- C10: an absolute path that lies under none of the bases (once the bases
are made absolute) is returned unchanged by `normPath` with no error, and a
`Mod` all of whose paths lie under none of the bases passes through
`Mod.normPaths` unmodified. -/
theorem normPath_outside_bases (abs : String → String × Bool)
    (rel : String → String → Except Unit String) (join : String → String → String)
    (bases : List String) (p : String) (mod : Mod)
    (hp : ∀ b ∈ bases, isUnder (abs b).1 p = false)
    (hmod : ∀ q, (q ∈ mod.Changed ∨ q ∈ mod.Deleted ∨ q ∈ mod.Added) →
      ∀ b ∈ bases, isUnder (abs b).1 q = false) :
    normPath abs rel join bases p = Except.ok p ∧
    Mod.normPaths abs rel join mod bases = Except.ok mod := by
  refine ⟨normPath_of_outside abs rel join bases p hp, ?_⟩
  have hc := normPaths_of_outside abs rel join bases mod.Changed
    fun q hq => hmod q (Or.inl hq)
  have hd := normPaths_of_outside abs rel join bases mod.Deleted
    fun q hq => hmod q (Or.inr (Or.inl hq))
  have ha := normPaths_of_outside abs rel join bases mod.Added
    fun q hq => hmod q (Or.inr (Or.inr hq))
  simp [Mod.normPaths, hc, hd, ha]

/-- Witness for C10: `"/y"` is not under the absolute base `"/x"`, so it
passes through `normPath`, and a `Mod` holding only `"/y"` passes through
`Mod.normPaths`, unchanged. -/
theorem normPath_outside_bases_witness :
    normPath (fun b => (b, false)) (fun _ c => Except.ok c) (fun a b => a ++ b)
      ["/x"] "/y" = Except.ok "/y" ∧
    Mod.normPaths (fun b => (b, false)) (fun _ c => Except.ok c) (fun a b => a ++ b)
      (Mod.mk ["/y"] [] []) ["/x"] = Except.ok (Mod.mk ["/y"] [] []) := by
  have h := normPath_outside_bases (fun b => (b, false)) (fun _ c => Except.ok c)
    (fun a b => a ++ b) ["/x"] "/y" (Mod.mk ["/y"] [] [])
    (by decide) (by intro q hq b hb; simp at hq hb; subst hq; subst hb; decide)
  exact h

/-! ### `Mod.All`: sorted, deduplicated union -/

lemma mem_foldl_insert (p : String) (l : List String) (init : Finset String) :
    p ∈ l.foldl (fun s q => insert q s) init ↔ p ∈ init ∨ p ∈ l := by
  induction l generalizing init with
  | nil => simp
  | cons q qs ih =>
    simp only [List.foldl_cons, ih, Finset.mem_insert, List.mem_cons]
    tauto

lemma all_eq (mod : Mod) :
    mod.All = _keys (mod.Deleted.foldl (fun s p => insert p s)
      (mod.Added.foldl (fun s p => insert p s)
        (mod.Changed.foldl (fun s p => insert p s) ∅))) := rfl

/-- C8: `All()` returns the union of `Added`, `Changed` and `Deleted` as a
sorted, duplicate-free list, and the result depends only on which paths are
present in the three sequences, not on their order or multiplicity. -/
theorem all_sorted_dedup_union (m m1 m2 : Mod) (p : String)
    (h : ∀ q, (q ∈ m1.Changed ∨ q ∈ m1.Added ∨ q ∈ m1.Deleted) ↔
              (q ∈ m2.Changed ∨ q ∈ m2.Added ∨ q ∈ m2.Deleted)) :
    m.All.Nodup ∧ List.Sorted (· ≤ ·) m.All ∧
    (p ∈ m.All ↔ (p ∈ m.Changed ∨ p ∈ m.Added ∨ p ∈ m.Deleted)) ∧
    m1.All = m2.All := by
  refine ⟨?_, ?_, ?_, ?_⟩
  · rw [all_eq]
    exact Finset.sort_nodup _ _
  · rw [all_eq]
    exact Finset.sort_sorted _ _
  · rw [all_eq]
    unfold _keys
    rw [Finset.mem_sort]
    simp only [mem_foldl_insert, Finset.not_mem_empty]
    tauto
  · rw [all_eq, all_eq]
    unfold _keys
    congr 1
    ext q
    have hq := h q
    simp only [mem_foldl_insert, Finset.not_mem_empty]
    tauto

/-- Witness for C8: two `Mod`s whose `Changed` lists differ in order and
multiplicity but not membership have identical `All()` output, which is the
sorted dedup of the union. -/
theorem all_sorted_dedup_union_witness :
    (Mod.mk ["b", "a", "a"] [] ["c"]).All = (Mod.mk ["a", "b"] [] ["c", "c"]).All ∧
    "a" ∈ (Mod.mk ["b", "a", "a"] [] ["c"]).All := by
  have h := all_sorted_dedup_union (Mod.mk ["b", "a", "a"] [] ["c"])
    (Mod.mk ["b", "a", "a"] [] ["c"]) (Mod.mk ["a", "b"] [] ["c", "c"]) "a"
    (by intro q; simp; tauto)
  exact ⟨h.2.2.2, (h.2.2.1).2 (Or.inl (by simp))⟩

/-! ### The debounce timing model -/

lemma batchCycle_end (D r : Nat) (ts : List Nat) :
    (batchCycle D r ts).2 = (batchCycle D r ts).1.getLastD r + D := by
  induction ts generalizing r with
  | nil => rfl
  | cons t ts ih =>
    by_cases h : t < r + D
    · simp only [batchCycle, if_pos h, List.getLastD_cons]
      exact ih t
    · simp [batchCycle, h]

lemma batchCycle_sub (D r : Nat) (ts : List Nat) :
    ∀ x ∈ (batchCycle D r ts).1, x ∈ ts := by
  induction ts generalizing r with
  | nil => simp [batchCycle]
  | cons t ts ih =>
    by_cases h : t < r + D
    · simp only [batchCycle, if_pos h]
      intro x hx
      rcases List.mem_cons.1 hx with hx | hx
      · simp [hx]
      · exact List.mem_cons_of_mem _ (ih t x hx)
    · simp [batchCycle, h]

lemma batchCycle_le (D r : Nat) (ts : List Nat) (hsort : ts.Chain' (· ≤ ·)) :
    ∀ x ∈ (batchCycle D r ts).1, x ≤ (batchCycle D r ts).1.getLastD r := by
  induction ts generalizing r with
  | nil => simp [batchCycle]
  | cons t ts ih =>
    by_cases h : t < r + D
    · simp only [batchCycle, if_pos h, List.getLastD_cons]
      intro x hx
      have hpair : ∀ y ∈ ts, t ≤ y :=
        (List.pairwise_cons.1 (List.chain'_iff_pairwise.1 hsort)).1
      rcases List.mem_cons.1 hx with hx | hx
      · subst hx
        rcases List.mem_cons.1 (List.getLastD_mem_cons (batchCycle D x ts).1 x) with
          hm | hm
        · rw [hm]
        · exact hpair _ (batchCycle_sub D x ts _ hm)
      · exact ih t hsort.tail x hx
    · simp [batchCycle, h]

lemma batchCycle_consumes_all (D r : Nat) (ts : List Nat)
    (hhead : ∀ t0 ∈ ts.head?, t0 < r + D)
    (hgap : ts.Chain' (fun a b => b < a + D)) :
    (batchCycle D r ts).1 = ts := by
  induction ts generalizing r with
  | nil => rfl
  | cons t ts ih =>
    have ht : t < r + D := hhead t (by simp)
    simp only [batchCycle, if_pos ht]
    rw [ih t (List.chain'_cons'.1 hgap).1 (List.chain'_cons'.1 hgap).2]

/-- C7: the accumulation loop has idle-timeout semantics.  In the timing
model of the `select` loop (`batchCycle`), the cycle ends exactly one quiet
period `D` after the most recently consumed event — or after cycle start if
no event is consumed — so every consumed event re-arms the timer; the cycle
never ends at an event step (every consumed event arrives strictly before
the end); and whenever consecutive arrival gaps stay below `D` (and the
first event beats the initial deadline) the whole burst is consumed in one
cycle, regardless of its total span. -/
theorem batch_debounce (D r : Nat) (ts : List Nat) (hD : 0 < D)
    (hsort : ts.Chain' (· ≤ ·)) :
    (batchCycle D r ts).2 = (batchCycle D r ts).1.getLastD r + D ∧
    (∀ t ∈ (batchCycle D r ts).1, t < (batchCycle D r ts).2) ∧
    ((∀ t0 ∈ ts.head?, t0 < r + D) → ts.Chain' (fun a b => b < a + D) →
      (batchCycle D r ts).1 = ts) := by
  refine ⟨batchCycle_end D r ts, ?_, batchCycle_consumes_all D r ts⟩
  intro t ht
  have h1 := batchCycle_le D r ts hsort t ht
  rw [batchCycle_end]
  omega

/-- Witness for C7: with quiet period `2` and events at instants `1`, `2`,
`3` (each gap below the quiet period, total span above it), one cycle
consumes the whole burst and ends at instant `5`, one quiet period after
the last event. -/
theorem batch_debounce_witness :
    (batchCycle 2 0 [1, 2, 3]).1 = [1, 2, 3] ∧
    (batchCycle 2 0 [1, 2, 3]).2 = (batchCycle 2 0 [1, 2, 3]).1.getLastD 0 + 2 := by
  have h := batch_debounce 2 0 [1, 2, 3] (by decide)
    (by simp [List.chain'_cons, List.chain'_singleton])
  exact ⟨h.2.2 (by decide) (by simp [List.chain'_cons, List.chain'_singleton]), h.1⟩

end Modd
